import Mathlib

/-! Verification of the encryption-at-rest engine of `daily_organiser`.

The definitions below are a shallow embedding of `src/encryption.ts` and
`src/storage.ts`.  Node `Buffer` values are modelled as lists of natural
numbers; the file system is modelled as a map from paths to optional byte
buffers together with a set of paths whose writes fail (used to model
injected `fs.writeFileSync` errors).  The AES-256-GCM primitive provided
by Node's `crypto` module is external to the repository; it is modelled as
an idealized AEAD cipher: the ciphertext is a keystream XOR of the
plaintext and the authentication tag is an injective function of
(key, nonce, ciphertext), so authentication is perfect rather than
overwhelming-probability.  All frame layout, error branching, session
handling, migration and storage-routing logic is translated directly from
the TypeScript source. -/

namespace DailyOrganiser

/-- Byte buffers (Node `Buffer`) modelled as lists of natural numbers. -/
abbrev Buf := List Nat

/-- The 12 ASCII bytes of `"DAILY_ENC_V1"` (encryption.ts line 7). -/
def MAGIC : Buf := [68, 65, 73, 76, 89, 95, 69, 78, 67, 95, 86, 49]

/-- Constant from encryption.ts line 8. -/
def MAGIC_LENGTH : Nat := 12

/-- Constant from encryption.ts line 9. -/
def NONCE_LENGTH : Nat := 12

/-- Constant from encryption.ts line 10. -/
def TAG_LENGTH : Nat := 16

/-- Constant from encryption.ts line 11. -/
def KEY_LENGTH : Nat := 32

/-- Injective code of a byte list into one natural number, used only inside
the idealized model of the external AEAD primitive. -/
def listCode : Buf → Nat
  | [] => 0
  | a :: l => 2 ^ a * (2 * listCode l + 1)

/-- Keystream constant of the idealized AEAD cipher (stands in for the
AES-256-GCM keystream of Node's `crypto`, which is external code). -/
def ksOf (key nonce : Buf) : Nat := (listCode key + listCode nonce) % 256

/-- Ciphertext production of the idealized cipher: per-byte XOR with the
keystream constant.  Models `cipher.update(plaintext)` / `cipher.final()`
(encryption.ts line 51); length-preserving, as GCM is. -/
def encCore (key nonce pt : Buf) : Buf := pt.map (fun b => b ^^^ ksOf key nonce)

/-- Plaintext recovery of the idealized cipher.  Models
`decipher.update(encrypted)` / `decipher.final()` (encryption.ts line 71). -/
def decCore (key nonce ct : Buf) : Buf := ct.map (fun b => b ^^^ ksOf key nonce)

/-- Authentication tag of the idealized cipher: a 16-entry buffer whose
first entry injectively codes (key, nonce, ciphertext).  Models
`cipher.getAuthTag()` (encryption.ts line 52); the GCM tag check is
idealized as exact rather than overwhelming-probability. -/
def tagOf (key nonce ct : Buf) : Buf :=
  Nat.pair (listCode key) (Nat.pair (listCode nonce) (listCode ct)) :: List.replicate 15 0

/-- Error taxonomy of the engine.  The constructors correspond to the
exceptions thrown by encryption.ts: `sessionNotUnlocked` is
"Encryption session not unlocked" (lines 48 and 57), `invalidTooShort` is
"Invalid encrypted data: too short" (line 59), `invalidFormat` is
"Invalid encrypted file format" (line 63), `decryptionFailed` is
"Decryption failed: wrong passphrase or corrupt data" (line 73);
`fileNotFound` and `writeFailed` model the exceptions raised by
`fs.readFileSync` / `fs.writeFileSync`. -/
inductive EncError where
  | sessionNotUnlocked
  | invalidTooShort
  | invalidFormat
  | decryptionFailed
  | fileNotFound
  | writeFailed
deriving DecidableEq

/-- Translation of `encrypt` (encryption.ts lines 47-54).  The session key
is passed explicitly (the module-level `sessionKey` variable) and the fresh
random nonce of line 49 is supplied by the caller as an oracle value. -/
def encrypt (sessionKey : Option Buf) (nonce : Buf) (plaintext : Buf) : Except EncError Buf :=
  match sessionKey with
  | none => .error .sessionNotUnlocked
  | some key =>
    let encrypted := encCore key nonce plaintext
    let tag := tagOf key nonce encrypted
    .ok (MAGIC ++ nonce ++ tag ++ encrypted)

/-- Translation of `decrypt` (encryption.ts lines 56-75).  `subarray(a, b)`
is `(drop a).take (b - a)`. -/
def decrypt (sessionKey : Option Buf) (ciphertext : Buf) : Except EncError Buf :=
  match sessionKey with
  | none => .error .sessionNotUnlocked
  | some key =>
    if ciphertext.length < MAGIC_LENGTH + NONCE_LENGTH + TAG_LENGTH then
      .error .invalidTooShort
    else
      let magic := ciphertext.take MAGIC_LENGTH
      if magic ≠ MAGIC then
        .error .invalidFormat
      else
        let nonce := (ciphertext.drop MAGIC_LENGTH).take NONCE_LENGTH
        let tag := (ciphertext.drop (MAGIC_LENGTH + NONCE_LENGTH)).take TAG_LENGTH
        let encrypted := ciphertext.drop (MAGIC_LENGTH + NONCE_LENGTH + TAG_LENGTH)
        if tag = tagOf key nonce encrypted then .ok (decCore key nonce encrypted)
        else .error .decryptionFailed

/-- Translation of `isEncryptedBuffer` (encryption.ts lines 77-80). -/
def isEncryptedBuffer (buf : Buf) : Bool :=
  if buf.length < MAGIC_LENGTH then false
  else decide (buf.take MAGIC_LENGTH = MAGIC)

/-- File-system state: path-indexed file contents plus the set of paths
whose writes fail (models injected `fs.writeFileSync` failures; empty in
the normal runs). -/
structure FS where
  files : String → Option Buf
  failWrite : String → Bool

/-- Models `fs.readFileSync`; `none` is the thrown missing-file error. -/
def readFile (fs : FS) (p : String) : Option Buf := fs.files p

/-- Models `fs.writeFileSync`; `none` is a thrown write error. -/
def writeFile (fs : FS) (p : String) (c : Buf) : Option FS :=
  if fs.failWrite p then none
  else some { fs with files := fun q => if q = p then some c else fs.files q }

/-- Translation of `encryptFile` (encryption.ts lines 82-86). -/
def encryptFile (sessionKey : Option Buf) (nonce : Buf) (fs : FS) (filePath : String) :
    Except EncError FS :=
  match readFile fs filePath with
  | none => .error .fileNotFound
  | some plaintext =>
    if isEncryptedBuffer plaintext then .ok fs
    else
      match encrypt sessionKey nonce plaintext with
      | .error e => .error e
      | .ok frame =>
        match writeFile fs filePath frame with
        | some fs' => .ok fs'
        | none => .error .writeFailed

/-- Translation of `decryptFile` (encryption.ts lines 88-92). -/
def decryptFile (sessionKey : Option Buf) (fs : FS) (filePath : String) :
    Except EncError Buf :=
  match readFile fs filePath with
  | none => .error .fileNotFound
  | some ciphertext =>
    if !isEncryptedBuffer ciphertext then .ok ciphertext
    else decrypt sessionKey ciphertext

/-- Marker path (encryption.ts lines 21-23); `path.join` is modelled as
string concatenation with a separator. -/
def encryptedMarkerPath (dataDir : String) : String := dataDir ++ "/.encrypted"

/-- Translation of `isEncryptionEnabled` (encryption.ts lines 29-31);
`dataDir` is the module-level variable set by `initEncryption`, and
`fs.existsSync` is presence in the file map. -/
def isEncryptionEnabled (dataDir : String) (fs : FS) : Bool :=
  decide (dataDir ≠ "") && (readFile fs (encryptedMarkerPath dataDir)).isSome

/-- Path of the todo store (storage.ts lines 36-38). -/
def getDataFile (activeDataDir : String) : String := activeDataDir ++ "/todos.json"

/-- Translation of the byte-level part of `saveTodos` (storage.ts lines
76-90): `json` stands for `JSON.stringify(store, null, 2)` (serialization
itself is outside the encryption layer); `encDataDir` is the encryption
module's `dataDir` consulted by `isEncryptionEnabled`, `activeDataDir` the
storage module's active directory; the caught-and-rethrown error of lines
86-89 is the propagated `.error`. -/
def saveTodos (encDataDir activeDataDir : String) (sessionKey : Option Buf) (nonce : Buf)
    (fs : FS) (json : Buf) : Except EncError FS :=
  match (if isEncryptionEnabled encDataDir fs then encrypt sessionKey nonce json
         else .ok json) with
  | .error e => .error e
  | .ok output =>
    match writeFile fs (getDataFile activeDataDir) output with
    | some fs' => .ok fs'
    | none => .error .writeFailed

/-- Translation of the byte-level part of `loadTodos` (storage.ts lines
51-74): the result is the decoded byte string handed to `JSON.parse`;
`none` covers both the missing-file early return and the catch-all error
handler, in which cases the source returns an empty todo list. -/
def loadTodos (sessionKey : Option Buf) (activeDataDir : String) (fs : FS) : Option Buf :=
  match readFile fs (getDataFile activeDataDir) with
  | none => none
  | some raw =>
    if isEncryptedBuffer raw then
      match decrypt sessionKey raw with
      | .ok d => some d
      | .error _ => none
    else some raw

/-- One pass of the migration loop of `setupEncryption` (encryption.ts
lines 179-183): for each file, read its current bytes into the in-memory
backup map (insertion-ordered, as a JS `Map` is), then `encryptFile` it in
place.  Returns the resulting file system, the accumulated backups and the
first error, if any; `i` indexes the nonce oracle. -/
def encryptLoop (sessionKey : Option Buf) (nonces : Nat → Buf) (i : Nat) (fs : FS) :
    List String → List (String × Buf) → FS × List (String × Buf) × Option EncError
  | [], backups => (fs, backups, none)
  | filePath :: rest, backups =>
    match readFile fs filePath with
    | none => (fs, backups, some .fileNotFound)
    | some content =>
      match encryptFile sessionKey (nonces i) fs filePath with
      | .error e => (fs, backups ++ [(filePath, content)], some e)
      | .ok fs' =>
        encryptLoop sessionKey nonces (i + 1) fs' rest (backups ++ [(filePath, content)])

/-- Rollback loop of `setupEncryption` (encryption.ts lines 187-189):
write every backup back in insertion order, ignoring the failure of any
individual restore write. -/
def restoreAll (fs : FS) (backups : List (String × Buf)) : FS :=
  backups.foldl (fun f pb =>
    match writeFile f pb.1 pb.2 with
    | some f' => f'
    | none => f) fs

/-- Result of a `setupEncryption` run: the session key left installed, the
resulting file system, and the propagated error, if any. -/
structure SetupResult where
  sessionKey : Option Buf
  fs : FS
  err : Option EncError

/-- Translation of the migration phase of `setupEncryption` (encryption.ts
lines 176-192).  The interactive phase (lines 152-174: the
already-enabled delegation to `unlockSession` and the passphrase
prompt/confirm/derive steps) is modelled at the call boundary by the
derived `key`; `files` is the `collectDataFiles()` result, `nonces` the
randomness oracle for the per-file `encrypt` calls, `markerPath` the
`encryptedMarkerPath()`.  On any error the backups are written back, the
session key is discarded and the error is returned; the marker file is
written only after the whole loop succeeds. -/
def setupEncryption (key : Buf) (nonces : Nat → Buf) (fs : FS) (files : List String)
    (markerPath : String) : SetupResult :=
  let r := encryptLoop (some key) nonces 0 fs files []
  match r.2.2 with
  | some e => ⟨none, restoreAll r.1 r.2.1, some e⟩
  | none =>
    match writeFile r.1 markerPath [] with
    | some fs2 => ⟨some key, fs2, none⟩
    | none => ⟨none, restoreAll r.1 r.2.1, some .writeFailed⟩

/-- Outcome of `unlockSession`; the two `process.exit(1)` paths appear as
the two failure constructors. -/
inductive UnlockOutcome where
  | ok
  | saltMissing
  | wrongPassphrase
deriving DecidableEq

/-- Idealized model of `crypto.scryptSync` (`deriveKey`, encryption.ts
lines 43-45), which is external library code: a 32-entry key depending
injectively on the (passphrase, salt) pair, so distinct passphrases derive
distinct keys.  The passphrase string is modelled by its bytes. -/
def deriveKey (passphrase salt : Buf) : Buf :=
  Nat.pair (listCode passphrase) (listCode salt) :: List.replicate 31 0

/-- Translation of `unlockSession` (encryption.ts lines 204-232).  The
interactive passphrase prompt is a parameter; the hex encode/decode of the
salt file is abstracted (the stored bytes are the salt itself), since no
claim concerns it.  The returned pair is the module `sessionKey` left
installed and the outcome: the source installs the candidate key before
the trial decryption of `todos.json` and nulls it again on failure, so the
observable post-state is exactly this pair. -/
def unlockSession (fs : FS) (saltPath todosPath : String) (passphrase : Buf) :
    Option Buf × UnlockOutcome :=
  match readFile fs saltPath with
  | none => (none, .saltMissing)
  | some salt =>
    let key := deriveKey passphrase salt
    match readFile fs todosPath with
    | some raw =>
      if isEncryptedBuffer raw then
        match decrypt (some key) raw with
        | .ok _ => (some key, .ok)
        | .error _ => (none, .wrongPassphrase)
      else (some key, .ok)
    | none => (some key, .ok)

/-- Witness fixture: a session key. -/
def keyW : Buf := [1]

/-- Witness fixture: a 12-byte nonce. -/
def nonceW : Buf := List.replicate 12 0

/-- Witness fixture: a second, distinct 12-byte nonce. -/
def nonceW2 : Buf := List.replicate 12 1

/-- Witness fixture: a file system with one plaintext file, one framed
file and one todo store, all writable. -/
def fsW : FS where
  files := fun q =>
    if q = "ws/todos.json" then some [123, 125]
    else if q = "ws/plain.md" then some [104, 105]
    else if q = "ws/enc.md" then some ((encrypt (some keyW) nonceW [104]).toOption.getD [])
    else none
  failWrite := fun _ => false

/-- Witness fixture: two plaintext files where writing the second fails. -/
def fsFailW : FS where
  files := fun q =>
    if q = "a" then some [104]
    else if q = "b" then some [105]
    else none
  failWrite := fun q => decide (q = "b")

/-- Witness fixture: salt bytes. -/
def saltW : Buf := [2]

/-- Witness fixture: the key derived from the true passphrase. -/
def kTrueW : Buf := deriveKey [1] saltW

/-- Witness fixture: an already-encrypted workspace for `unlockSession`. -/
def fsUnlockW : FS where
  files := fun q =>
    if q = "ws/.salt" then some saltW
    else if q = "ws/todos.json" then
      some ((encrypt (some kTrueW) nonceW [123]).toOption.getD [])
    else none
  failWrite := fun _ => false

lemma MAGIC_len : MAGIC.length = 12 := rfl

lemma listCode_cons_pos (a : Nat) (l : Buf) : 0 < listCode (a :: l) := by
  have h1 : 0 < 2 ^ a := Nat.pos_pow_of_pos a (by omega)
  have h2 : 0 < 2 * listCode l + 1 := by omega
  exact Nat.mul_pos h1 h2

lemma two_pow_mul_odd_inj {a b x y : Nat}
    (h : 2 ^ a * (2 * x + 1) = 2 ^ b * (2 * y + 1)) : a = b ∧ x = y := by
  induction a generalizing b with
  | zero =>
    cases b with
    | zero => constructor <;> omega
    | succ b' =>
      have h2 : 2 * x + 1 = 2 * (2 ^ b' * (2 * y + 1)) := by
        rw [show (2 : Nat) ^ 0 * (2 * x + 1) = 2 * x + 1 by ring] at h
        rw [h, pow_succ]; ring
      omega
  | succ a' ih =>
    cases b with
    | zero =>
      have h2 : 2 * y + 1 = 2 * (2 ^ a' * (2 * x + 1)) := by
        rw [show (2 : Nat) ^ 0 * (2 * y + 1) = 2 * y + 1 by ring] at h
        rw [← h, pow_succ]; ring
      omega
    | succ b' =>
      have h2 : 2 * (2 ^ a' * (2 * x + 1)) = 2 * (2 ^ b' * (2 * y + 1)) := by
        have ha : (2 : Nat) ^ (a' + 1) * (2 * x + 1) =
            2 * (2 ^ a' * (2 * x + 1)) := by rw [pow_succ]; ring
        have hb : (2 : Nat) ^ (b' + 1) * (2 * y + 1) =
            2 * (2 ^ b' * (2 * y + 1)) := by rw [pow_succ]; ring
        rw [← ha, ← hb]; exact h
      have h3 := Nat.eq_of_mul_eq_mul_left (by omega : 0 < 2) h2
      obtain ⟨he, hx⟩ := ih h3
      exact ⟨by omega, hx⟩

lemma listCode_inj : ∀ {l1 l2 : Buf}, listCode l1 = listCode l2 → l1 = l2
  | [], [], _ => rfl
  | [], a :: l, h => by
    have h1 := listCode_cons_pos a l
    have h0 : listCode ([] : Buf) = 0 := rfl
    omega
  | a :: l, [], h => by
    have h1 := listCode_cons_pos a l
    have h0 : listCode ([] : Buf) = 0 := rfl
    omega
  | a :: l1, b :: l2, h => by
    obtain ⟨hab, hl⟩ := two_pow_mul_odd_inj (h : 2 ^ a * (2 * listCode l1 + 1) = _)
    rw [hab, listCode_inj hl]

lemma length_encCore (key nonce pt : Buf) : (encCore key nonce pt).length = pt.length :=
  List.length_map _ _

lemma length_tagOf (key nonce ct : Buf) : (tagOf key nonce ct).length = TAG_LENGTH := rfl

lemma decCore_encCore (key nonce pt : Buf) : decCore key nonce (encCore key nonce pt) = pt := by
  simp [decCore, encCore, List.map_map, Function.comp_def, Nat.xor_cancel_right]

lemma encCore_decCore (key nonce ct : Buf) : encCore key nonce (decCore key nonce ct) = ct := by
  simp [decCore, encCore, List.map_map, Function.comp_def, Nat.xor_cancel_right]

lemma tagOf_inj {k n c k' n' c' : Buf} (h : tagOf k n c = tagOf k' n' c') :
    k = k' ∧ n = n' ∧ c = c' := by
  have h1 : Nat.pair (listCode k) (Nat.pair (listCode n) (listCode c)) =
      Nat.pair (listCode k') (Nat.pair (listCode n') (listCode c')) :=
    (List.cons.injEq _ _ _ _ ▸ h).1
  rw [Nat.pair_eq_pair] at h1
  obtain ⟨hk, h2⟩ := h1
  rw [Nat.pair_eq_pair] at h2
  exact ⟨listCode_inj hk, listCode_inj h2.1, listCode_inj h2.2⟩

/-- Parsing a well-formed frame recovers its four fields. -/
lemma parse_frame (n t c : Buf) (hn : n.length = NONCE_LENGTH)
    (ht : t.length = TAG_LENGTH) :
    (MAGIC ++ n ++ t ++ c).length = 40 + c.length ∧
    (MAGIC ++ n ++ t ++ c).take 12 = MAGIC ∧
    ((MAGIC ++ n ++ t ++ c).drop 12).take 12 = n ∧
    ((MAGIC ++ n ++ t ++ c).drop 24).take 16 = t ∧
    (MAGIC ++ n ++ t ++ c).drop 40 = c := by
  have hn' : n.length = 12 := hn
  have ht' : t.length = 16 := ht
  refine ⟨?_, ?_, ?_, ?_, ?_⟩
  · simp [List.length_append, MAGIC_len, hn', ht']; omega
  · rw [List.append_assoc, List.append_assoc, List.take_left' MAGIC_len]
  · rw [List.append_assoc, List.append_assoc, List.drop_left' MAGIC_len,
      List.take_left' hn']
  · rw [List.append_assoc,
      List.drop_left' (show (MAGIC ++ n).length = 24 by simp [MAGIC_len, hn']),
      List.take_left' ht']
  · rw [List.drop_left' (show (MAGIC ++ n ++ t).length = 40 by simp [MAGIC_len, hn', ht'])]

/-- Every buffer that begins with the magic tag is classified encrypted. -/
lemma isEncryptedBuffer_magic_append (rest : Buf) :
    isEncryptedBuffer (MAGIC ++ rest) = true := by
  rw [isEncryptedBuffer,
    if_neg (by rw [List.length_append, MAGIC_len]; simp [MAGIC_LENGTH]),
    show MAGIC_LENGTH = 12 from rfl, List.take_left' MAGIC_len]
  simp

/-- The output of a successful `encrypt` is classified as encrypted. -/
lemma isEncryptedBuffer_encrypt {k n p fr : Buf}
    (henc : encrypt (some k) n p = .ok fr) : isEncryptedBuffer fr = true := by
  have hfr : fr = MAGIC ++ n ++ tagOf k n (encCore k n p) ++ encCore k n p := by
    simpa [encrypt] using henc.symm
  rw [hfr, List.append_assoc, List.append_assoc, isEncryptedBuffer_magic_append]

/-- C1: for every plaintext buffer and every installed 32-byte session key,
decrypting the frame produced by `encrypt` under the same key succeeds and
returns exactly the plaintext (AEAD round trip). -/
theorem decrypt_encrypt_roundtrip (k n p fr : Buf) (hk : k.length = KEY_LENGTH)
    (hn : n.length = NONCE_LENGTH) (henc : encrypt (some k) n p = .ok fr) :
    decrypt (some k) fr = .ok p := by
  have hfr : fr = MAGIC ++ n ++ tagOf k n (encCore k n p) ++ encCore k n p := by
    simpa [encrypt] using henc.symm
  obtain ⟨hlen, hmag, hnon, htag, henc'⟩ :=
    parse_frame n (tagOf k n (encCore k n p)) (encCore k n p) hn (length_tagOf ..)
  have htag' : ((MAGIC ++ n ++ tagOf k n (encCore k n p) ++ encCore k n p).drop
      (12 + 12)).take 16 = tagOf k n (encCore k n p) := by
    rw [show (12 : Nat) + 12 = 24 from rfl]; exact htag
  have henc'' : (MAGIC ++ n ++ tagOf k n (encCore k n p) ++ encCore k n p).drop
      (12 + 12 + 16) = encCore k n p := by
    rw [show (12 : Nat) + 12 + 16 = 40 from rfl]; exact henc'
  rw [hfr, decrypt]
  simp only [MAGIC_LENGTH, NONCE_LENGTH, TAG_LENGTH]
  rw [if_neg (by rw [hlen]; omega)]
  rw [if_neg (show ¬_ ≠ _ from fun hh => hh hmag)]
  rw [hnon, htag', henc'']
  rw [if_pos rfl, decCore_encCore]

/-- C1 witness. -/
theorem decrypt_encrypt_roundtrip_witness :
    decrypt (some (List.replicate 32 7)) ((encrypt (some (List.replicate 32 7))
      (List.replicate 12 3) [104, 105]).toOption.getD []) = .ok [104, 105] := by
  apply decrypt_encrypt_roundtrip (List.replicate 32 7) (List.replicate 12 3) [104, 105]
  · decide
  · decide
  · rfl

/-- C5: two `encrypt` calls under the same key on the same plaintext with
distinct fresh nonces produce different output byte sequences (the random
12-byte nonce of encryption.ts line 49 is modelled as an oracle input, so
freshness is the hypothesis that the two nonces differ). -/
theorem encrypt_nonce_freshness (k n1 n2 p f1 f2 : Buf)
    (hn1 : n1.length = NONCE_LENGTH) (hn2 : n2.length = NONCE_LENGTH) (hne : n1 ≠ n2)
    (h1 : encrypt (some k) n1 p = .ok f1) (h2 : encrypt (some k) n2 p = .ok f2) :
    f1 ≠ f2 := by
  have hf1 : f1 = MAGIC ++ n1 ++ tagOf k n1 (encCore k n1 p) ++ encCore k n1 p := by
    simpa [encrypt] using h1.symm
  have hf2 : f2 = MAGIC ++ n2 ++ tagOf k n2 (encCore k n2 p) ++ encCore k n2 p := by
    simpa [encrypt] using h2.symm
  intro hcontra
  apply hne
  have e1 := (parse_frame n1 (tagOf k n1 (encCore k n1 p))
    (encCore k n1 p) hn1 (length_tagOf ..)).2.2.1
  have e2 := (parse_frame n2 (tagOf k n2 (encCore k n2 p))
    (encCore k n2 p) hn2 (length_tagOf ..)).2.2.1
  rw [← e1, ← e2, ← hf1, ← hf2, hcontra]

/-- C5 witness. -/
theorem encrypt_nonce_freshness_witness :
    (encrypt (some [1]) (List.replicate 12 0) [5]).toOption.getD [] ≠
    (encrypt (some [1]) (List.replicate 12 1) [5]).toOption.getD [] := by
  apply encrypt_nonce_freshness [1] (List.replicate 12 0) (List.replicate 12 1) [5]
  · decide
  · decide
  · decide
  · rfl
  · rfl

/-- C6: `isEncryptedBuffer` returns true iff the buffer is at least 12
bytes long and its first 12 bytes are exactly the magic tag; every shorter
buffer and every buffer with mismatched magic is classified as plaintext. -/
theorem isEncryptedBuffer_iff (buf : Buf) :
    isEncryptedBuffer buf = true ↔
      MAGIC_LENGTH ≤ buf.length ∧ buf.take MAGIC_LENGTH = MAGIC := by
  unfold isEncryptedBuffer
  by_cases h : buf.length < MAGIC_LENGTH
  · rw [if_pos h]
    constructor
    · intro hh; exact absurd hh (by simp)
    · intro hh; omega
  · rw [if_neg h]
    simp only [decide_eq_true_eq]
    constructor
    · intro hh; exact ⟨by omega, hh⟩
    · intro hh; exact hh.2

/-- Evaluation of `decrypt` on a structurally well-formed frame: everything
reduces to the authentication-tag comparison. -/
lemma decrypt_frame_eval (k n t c : Buf) (hn : n.length = NONCE_LENGTH)
    (ht : t.length = TAG_LENGTH) :
    decrypt (some k) (MAGIC ++ n ++ t ++ c) =
      if t = tagOf k n c then .ok (decCore k n c) else .error .decryptionFailed := by
  obtain ⟨hlen, hmag, hnon, htag, henc'⟩ := parse_frame n t c hn ht
  have htag' : ((MAGIC ++ n ++ t ++ c).drop (12 + 12)).take 16 = t := by
    rw [show (12 : Nat) + 12 = 24 from rfl]; exact htag
  have henc'' : (MAGIC ++ n ++ t ++ c).drop (12 + 12 + 16) = c := by
    rw [show (12 : Nat) + 12 + 16 = 40 from rfl]; exact henc'
  rw [decrypt]
  simp only [MAGIC_LENGTH, NONCE_LENGTH, TAG_LENGTH]
  rw [if_neg (by rw [hlen]; omega)]
  rw [if_neg (show ¬_ ≠ _ from fun hh => hh hmag)]
  rw [hnon, htag', henc'']

lemma xor_two_pow_ne (a b : Nat) : a ^^^ 2 ^ b ≠ a := by
  intro h
  have h4 : a ^^^ (a ^^^ 2 ^ b) = a ^^^ a := by rw [h]
  rw [Nat.xor_cancel_left, Nat.xor_self] at h4
  have h3 : 0 < (2 : Nat) ^ b := Nat.pos_pow_of_pos b (by omega)
  omega

/-- Corrupting one entry of a list by a single bit flip changes the list. -/
lemma set_xor_ne {l : Buf} {i : Nat} (hi : i < l.length) (b : Nat) :
    l.set i (l.getD i 0 ^^^ 2 ^ b) ≠ l := by
  intro he
  have h1 : (l.set i (l.getD i 0 ^^^ 2 ^ b))[i]? = some (l.getD i 0 ^^^ 2 ^ b) :=
    List.getElem?_set_self (by simpa using hi)
  rw [he, List.getD_eq_getElem?_getD] at h1
  cases hx : l[i]? with
  | none => rw [hx] at h1; exact Option.noConfusion h1
  | some a =>
    rw [hx] at h1
    have h3 : a = a ^^^ 2 ^ b := by
      have h4 := Option.some.inj h1
      simpa using h4
    exact xor_two_pow_ne a b h3.symm

lemma frame_set_nonce (n t c : Buf) (hn : n.length = 12) (i : Nat) (hi : i < 12) (v : Nat) :
    (MAGIC ++ n ++ t ++ c).set (12 + i) v = MAGIC ++ n.set i v ++ t ++ c ∧
    (MAGIC ++ n ++ t ++ c).getD (12 + i) 0 = n.getD i 0 := by
  constructor
  · rw [List.append_assoc, List.append_assoc,
      List.set_append_right _ _ (by rw [MAGIC_len]; omega), MAGIC_len,
      show 12 + i - 12 = i by omega,
      List.set_append_left _ _ (by omega)]
    simp [List.append_assoc]
  · rw [List.getD_eq_getElem?_getD, List.getD_eq_getElem?_getD,
      List.append_assoc, List.append_assoc,
      List.getElem?_append_right (by rw [MAGIC_len]; omega), MAGIC_len,
      show 12 + i - 12 = i by omega,
      List.getElem?_append_left (by omega)]

lemma frame_set_tag (n t c : Buf) (hn : n.length = 12) (ht : t.length = 16)
    (i : Nat) (hi : i < 16) (v : Nat) :
    (MAGIC ++ n ++ t ++ c).set (24 + i) v = MAGIC ++ n ++ t.set i v ++ c ∧
    (MAGIC ++ n ++ t ++ c).getD (24 + i) 0 = t.getD i 0 := by
  have hlen2 : (MAGIC ++ n).length = 24 := by simp [MAGIC_len, hn]
  constructor
  · rw [show MAGIC ++ n ++ t ++ c = (MAGIC ++ n) ++ (t ++ c) by simp [List.append_assoc],
      List.set_append_right _ _ (by rw [hlen2]; omega), hlen2,
      show 24 + i - 24 = i by omega,
      List.set_append_left _ _ (by omega)]
    simp [List.append_assoc]
  · rw [List.getD_eq_getElem?_getD, List.getD_eq_getElem?_getD,
      show MAGIC ++ n ++ t ++ c = (MAGIC ++ n) ++ (t ++ c) by simp [List.append_assoc],
      List.getElem?_append_right (by rw [hlen2]; omega), hlen2,
      show 24 + i - 24 = i by omega,
      List.getElem?_append_left (by omega)]

lemma frame_set_ct (n t c : Buf) (hn : n.length = 12) (ht : t.length = 16)
    (i : Nat) (v : Nat) :
    (MAGIC ++ n ++ t ++ c).set (40 + i) v = MAGIC ++ n ++ t ++ c.set i v ∧
    ((MAGIC ++ n ++ t ++ c).getD (40 + i) 0 = c.getD i 0) := by
  have hlen3 : (MAGIC ++ n ++ t).length = 40 := by simp [MAGIC_len, hn, ht]
  constructor
  · rw [List.set_append_right _ _ (by rw [hlen3]; omega), hlen3,
      show 40 + i - 40 = i by omega]
  · rw [List.getD_eq_getElem?_getD, List.getD_eq_getElem?_getD,
      List.getElem?_append_right (by rw [hlen3]; omega), hlen3,
      show 40 + i - 40 = i by omega]

/-- Reassembling an accepted buffer from the fields `decrypt` extracts. -/
lemma frame_reassembly (f : Buf) (hmag : f.take 12 = MAGIC) :
    f = MAGIC ++ (f.drop 12).take 12 ++ (f.drop 24).take 16 ++ f.drop 40 := by
  have e1 : f.drop 12 = (f.drop 12).take 12 ++ f.drop 24 := by
    conv_lhs => rw [← List.take_append_drop 12 (f.drop 12)]
    rw [List.drop_drop, show (12 : Nat) + 12 = 24 from rfl]
  have e2 : f.drop 24 = (f.drop 24).take 16 ++ f.drop 40 := by
    conv_lhs => rw [← List.take_append_drop 16 (f.drop 24)]
    rw [List.drop_drop, show (24 : Nat) + 16 = 40 from rfl]
  conv_lhs => rw [← List.take_append_drop 12 f, hmag, e1, e2]
  simp [List.append_assoc]

/-- C2: with a session key installed, `decrypt` rejects frames shorter than
the 40-byte fixed header with the invalid-too-short error and frames with
wrong magic with the invalid-format error; it fails with the
authentication error when decrypting a genuine frame under a different key
or after any single bit of the frame's nonce, tag or ciphertext region is
flipped; and whenever it succeeds the input was exactly an `encrypt` output
for the returned plaintext, so no partially-decrypted or garbage bytes are
ever returned. -/
theorem decrypt_error_behaviour :
    (∀ k f, f.length < MAGIC_LENGTH + NONCE_LENGTH + TAG_LENGTH →
      decrypt (some k) f = .error .invalidTooShort)
    ∧ (∀ k f, ¬ f.length < MAGIC_LENGTH + NONCE_LENGTH + TAG_LENGTH →
      f.take MAGIC_LENGTH ≠ MAGIC → decrypt (some k) f = .error .invalidFormat)
    ∧ (∀ k k' n p fr, n.length = NONCE_LENGTH → encrypt (some k) n p = .ok fr →
      k' ≠ k → decrypt (some k') fr = .error .decryptionFailed)
    ∧ (∀ k n p fr j b, n.length = NONCE_LENGTH → encrypt (some k) n p = .ok fr →
      MAGIC_LENGTH ≤ j → j < fr.length →
      decrypt (some k) (fr.set j (fr.getD j 0 ^^^ 2 ^ b)) = .error .decryptionFailed)
    ∧ (∀ k f p, decrypt (some k) f = .ok p →
      ∃ n, n.length = NONCE_LENGTH ∧ encrypt (some k) n p = .ok f) := by
  refine ⟨?_, ?_, ?_, ?_, ?_⟩
  · intro k f h
    rw [decrypt, if_pos h]
  · intro k f h40 hmag
    rw [decrypt, if_neg h40, if_pos hmag]
  · intro k k' n p fr hn henc hne
    have hfr : fr = MAGIC ++ n ++ tagOf k n (encCore k n p) ++ encCore k n p := by
      simpa [encrypt] using henc.symm
    rw [hfr, decrypt_frame_eval k' n _ _ hn (length_tagOf ..)]
    rw [if_neg]
    intro hcontra
    exact hne (tagOf_inj hcontra).1.symm
  · intro k n p fr j b hn henc hj12 hjlen
    have hfr : fr = MAGIC ++ n ++ tagOf k n (encCore k n p) ++ encCore k n p := by
      simpa [encrypt] using henc.symm
    have hn' : n.length = 12 := hn
    have hj12' : 12 ≤ j := hj12
    subst hfr
    set t := tagOf k n (encCore k n p) with ht_def
    set c := encCore k n p with hc_def
    have hlenf : (MAGIC ++ n ++ t ++ c).length = 40 + c.length :=
      (parse_frame n t c hn (length_tagOf ..)).1
    rcases Nat.lt_or_ge j 24 with hj24 | hj24
    · obtain ⟨hset, hgd⟩ := frame_set_nonce n t c hn' (j - 12)
        (by omega) ((MAGIC ++ n ++ t ++ c).getD j 0 ^^^ 2 ^ b)
      rw [show 12 + (j - 12) = j by omega] at hset hgd
      rw [hset, hgd, decrypt_frame_eval k _ _ _ (by simp [hn', NONCE_LENGTH]) (length_tagOf ..)]
      rw [if_neg]
      intro hcontra
      have h2 := (tagOf_inj (ht_def ▸ hcontra)).2.1
      exact set_xor_ne (show j - 12 < n.length by omega) b h2.symm
    · rcases Nat.lt_or_ge j 40 with hj40 | hj40
      · obtain ⟨hset, hgd⟩ := frame_set_tag n t c hn' (length_tagOf ..) (j - 24)
          (by omega) ((MAGIC ++ n ++ t ++ c).getD j 0 ^^^ 2 ^ b)
        rw [show 24 + (j - 24) = j by omega] at hset hgd
        rw [hset, hgd, decrypt_frame_eval k _ _ _ hn'
          (by rw [List.length_set, ht_def, length_tagOf])]
        rw [if_neg]
        intro hcontra
        rw [← ht_def] at hcontra
        exact set_xor_ne
          (show j - 24 < t.length by
            rw [ht_def, length_tagOf]; simp only [TAG_LENGTH]; omega) b hcontra
      · obtain ⟨hset, hgd⟩ := frame_set_ct n t c hn' (length_tagOf ..) (j - 40)
          ((MAGIC ++ n ++ t ++ c).getD j 0 ^^^ 2 ^ b)
        rw [show 40 + (j - 40) = j by omega] at hset hgd
        rw [hset, hgd, decrypt_frame_eval k _ _ _ hn' (length_tagOf ..)]
        rw [if_neg]
        intro hcontra
        have h2 := (tagOf_inj (ht_def ▸ hcontra)).2.2
        have hjc : j - 40 < c.length := by omega
        exact set_xor_ne hjc b h2.symm
  · intro k f p h
    rw [decrypt] at h
    simp only [MAGIC_LENGTH, NONCE_LENGTH, TAG_LENGTH] at h
    by_cases h40 : f.length < 12 + 12 + 16
    · rw [if_pos h40] at h; exact absurd h (by simp)
    rw [if_neg h40] at h
    by_cases hmag : f.take 12 = MAGIC
    swap
    · rw [if_pos hmag] at h; exact absurd h (by simp)
    rw [if_neg (show ¬ f.take 12 ≠ MAGIC from fun hh => hh hmag)] at h
    by_cases htagc : (f.drop (12 + 12)).take 16 =
        tagOf k ((f.drop 12).take 12) (f.drop (12 + 12 + 16))
    swap
    · rw [if_neg htagc] at h; exact absurd h (by simp)
    rw [if_pos htagc] at h
    have hp : p = decCore k ((f.drop 12).take 12) (f.drop (12 + 12 + 16)) := by
      have := Except.ok.inj h
      exact this.symm
    refine ⟨(f.drop 12).take 12, ?_, ?_⟩
    · show ((f.drop 12).take 12).length = NONCE_LENGTH
      rw [List.length_take, List.length_drop, NONCE_LENGTH]
      omega
    · rw [encrypt]
      congr 1
      rw [hp, encCore_decCore]
      have ht24 : (f.drop (12 + 12)).take 16 = (f.drop 24).take 16 := by
        rw [show (12 : Nat) + 12 = 24 from rfl]
      have hc40 : f.drop (12 + 12 + 16) = f.drop 40 := by
        rw [show (12 : Nat) + 12 + 16 = 40 from rfl]
      rw [← htagc, ht24, hc40]
      exact (frame_reassembly f hmag).symm

/-- C2 witness. -/
theorem decrypt_error_behaviour_witness :
    decrypt (some [1]) [9, 9, 9] = .error .invalidTooShort ∧
    decrypt (some [1]) (List.replicate 40 9) = .error .invalidFormat ∧
    decrypt (some [2]) ((encrypt (some [1]) (List.replicate 12 0) [5]).toOption.getD [])
      = .error .decryptionFailed ∧
    decrypt (some [1]) (((encrypt (some [1]) (List.replicate 12 0) [5]).toOption.getD
      []).set 40 ((((encrypt (some [1]) (List.replicate 12 0) [5]).toOption.getD
      []).getD 40 0) ^^^ 2 ^ 0)) = .error .decryptionFailed ∧
    ∃ n, n.length = NONCE_LENGTH ∧ encrypt (some [1]) n [5] =
      .ok ((encrypt (some [1]) (List.replicate 12 0) [5]).toOption.getD []) := by
  obtain ⟨h1, h2, h3, h4, h5⟩ := decrypt_error_behaviour
  refine ⟨h1 [1] [9, 9, 9] (by decide), h2 [1] (List.replicate 40 9) (by decide) (by decide),
    h3 [1] [2] (List.replicate 12 0) [5] _ (by decide) rfl (by decide),
    h4 [1] (List.replicate 12 0) [5] _ 40 0 (by decide) rfl (by decide) (by decide),
    h5 [1] ((encrypt (some [1]) (List.replicate 12 0) [5]).toOption.getD [])
      ((decrypt (some [1]) ((encrypt (some [1]) (List.replicate 12 0)
        [5]).toOption.getD [])).toOption.getD []) ?_⟩
  rfl

lemma writeFile_some {fs : FS} {p : String} {c : Buf} {fs' : FS}
    (h : writeFile fs p c = some fs') :
    fs'.failWrite = fs.failWrite ∧ readFile fs' p = some c ∧
      ∀ q, q ≠ p → readFile fs' q = readFile fs q := by
  unfold writeFile at h
  by_cases hf : fs.failWrite p = true
  · rw [if_pos hf] at h; exact absurd h (by simp)
  · rw [if_neg hf] at h
    have he := Option.some.inj h
    subst he
    refine ⟨rfl, ?_, ?_⟩
    · show (if p = p then some c else fs.files p) = some c
      rw [if_pos rfl]
    · intro q hq
      show (if q = p then some c else fs.files q) = fs.files q
      rw [if_neg hq]

lemma writeFile_none {fs : FS} {p : String} {c : Buf} (h : writeFile fs p c = none) :
    fs.failWrite p = true := by
  unfold writeFile at h
  by_cases hf : fs.failWrite p = true
  · exact hf
  · rw [if_neg hf] at h; exact absurd h (by simp)

lemma writeFile_of_not_failWrite {fs : FS} {p : String} (c : Buf)
    (h : fs.failWrite p = false) : ∃ fs', writeFile fs p c = some fs' := by
  cases hw : writeFile fs p c with
  | some fs' => exact ⟨fs', rfl⟩
  | none => rw [writeFile_none hw] at h; exact absurd h (by simp)

/-- All the facts about a successful `encryptFile` call that the migration
and idempotence arguments need. -/
lemma encryptFile_ok_post {sk : Option Buf} {nonce : Buf} {fs fs' : FS} {p : String}
    (h : encryptFile sk nonce fs p = .ok fs') :
    fs'.failWrite = fs.failWrite ∧ (∀ q, q ≠ p → readFile fs' q = readFile fs q) ∧
      (∃ c, readFile fs' p = some c ∧ isEncryptedBuffer c = true) := by
  unfold encryptFile at h
  cases hr : readFile fs p with
  | none => simp [hr] at h
  | some content =>
    simp only [hr] at h
    by_cases hie : isEncryptedBuffer content = true
    · rw [if_pos hie] at h
      have he := Except.ok.inj h
      subst he
      exact ⟨rfl, fun q _ => rfl, ⟨content, hr, hie⟩⟩
    · rw [if_neg hie] at h
      cases sk with
      | none => simp [encrypt] at h
      | some k =>
        simp only [encrypt] at h
        cases hw : writeFile fs p (MAGIC ++ nonce ++ tagOf k nonce (encCore k nonce content) ++
            encCore k nonce content) with
        | none => rw [hw] at h; exact absurd h (by simp)
        | some fs'' =>
          rw [hw] at h
          have he : fs'' = fs' := Except.ok.inj h
          subst he
          obtain ⟨hfw, hself, hother⟩ := writeFile_some hw
          refine ⟨hfw, hother, ⟨_, hself, ?_⟩⟩
          rw [List.append_assoc, List.append_assoc]
          exact isEncryptedBuffer_magic_append _

/-- C8: a second `encryptFile` call on the same path is a no-op, because
the first call left the file in frame form and the frame is detected via
the magic tag, so the file's bytes are unchanged after the second call and
double-encryption never occurs. -/
theorem encryptFile_idempotent (sessionKey : Option Buf) (nonce1 nonce2 : Buf)
    (fs fs1 : FS) (filePath : String)
    (h1 : encryptFile sessionKey nonce1 fs filePath = .ok fs1) :
    encryptFile sessionKey nonce2 fs1 filePath = .ok fs1 := by
  obtain ⟨-, -, c, hc, hie⟩ := encryptFile_ok_post h1
  unfold encryptFile
  simp only [hc]
  rw [if_pos hie]

/-- C8 witness. -/
theorem encryptFile_idempotent_witness :
    encryptFile (some keyW) nonceW2
      ((encryptFile (some keyW) nonceW fsW "ws/plain.md").toOption.getD fsW) "ws/plain.md" =
      .ok ((encryptFile (some keyW) nonceW fsW "ws/plain.md").toOption.getD fsW) := by
  apply encryptFile_idempotent (some keyW) nonceW nonceW2 fsW
  rfl

/-- C9: `decryptFile` on a file whose content is not in frame form returns
the file's original bytes unchanged and does not fail. -/
theorem decryptFile_plaintext_passthrough (sessionKey : Option Buf) (fs : FS)
    (filePath : String) (c : Buf) (h1 : readFile fs filePath = some c)
    (h2 : isEncryptedBuffer c = false) :
    decryptFile sessionKey fs filePath = .ok c := by
  unfold decryptFile
  simp [h1, h2]

/-- C9 witness. -/
theorem decryptFile_plaintext_passthrough_witness :
    decryptFile (some keyW) fsW "ws/plain.md" = .ok [104, 105] := by
  apply decryptFile_plaintext_passthrough (some keyW) fsW "ws/plain.md" [104, 105]
  · rfl
  · rfl

/-- C10: with no session key installed, `encryptFile` on an already-framed
file and `decryptFile` on a non-framed file both succeed (the no-op and
passthrough paths never invoke the cipher), while the session-locked error
is raised exactly when the underlying cipher operation is reached: a
direct `encrypt`, an `encryptFile` of a plaintext file and a `decryptFile`
of a framed file all fail with it. -/
theorem no_session_noop_paths (fs : FS) (pEnc pPlain : String) (cEnc cPlain : Buf)
    (nonce : Buf) (hp : readFile fs pEnc = some cEnc)
    (hienc : isEncryptedBuffer cEnc = true)
    (hq : readFile fs pPlain = some cPlain)
    (hiplain : isEncryptedBuffer cPlain = false) :
    encryptFile none nonce fs pEnc = .ok fs ∧
    decryptFile none fs pPlain = .ok cPlain ∧
    encrypt none nonce cPlain = .error .sessionNotUnlocked ∧
    encryptFile none nonce fs pPlain = .error .sessionNotUnlocked ∧
    decryptFile none fs pEnc = .error .sessionNotUnlocked := by
  refine ⟨?_, ?_, rfl, ?_, ?_⟩
  · unfold encryptFile
    simp [hp, hienc]
  · unfold decryptFile
    simp [hq, hiplain]
  · unfold encryptFile
    simp [hq, hiplain, encrypt]
  · unfold decryptFile
    simp [hp, hienc, decrypt]

/-- C10 witness. -/
theorem no_session_noop_paths_witness :
    encryptFile none nonceW fsW "ws/enc.md" = .ok fsW ∧
    decryptFile none fsW "ws/plain.md" = .ok [104, 105] ∧
    encrypt none nonceW [104, 105] = .error .sessionNotUnlocked ∧
    encryptFile none nonceW fsW "ws/plain.md" = .error .sessionNotUnlocked ∧
    decryptFile none fsW "ws/enc.md" = .error .sessionNotUnlocked := by
  apply no_session_noop_paths fsW "ws/enc.md" "ws/plain.md"
    ((encrypt (some keyW) nonceW [104]).toOption.getD []) [104, 105] nonceW
  · rfl
  · rfl
  · rfl
  · rfl

/-- C7: on every todo-store write, `saveTodos` encrypts the serialized
bytes iff encryption is enabled for the directory (the `.encrypted` marker
is present there, checked through the encryption module's `dataDir`, which
the program initializes to the storage module's active directory) and
writes plaintext otherwise; on every read, `loadTodos` decrypts the stored
bytes iff they begin with the magic tag and uses them as-is otherwise. -/
theorem storage_transparent_encryption (encDataDir activeDataDir : String)
    (sessionKey : Option Buf) (nonce : Buf) (fs : FS) (json raw : Buf)
    (hdir : encDataDir = activeDataDir) :
    (isEncryptionEnabled encDataDir fs = true →
      ∀ fs', saveTodos encDataDir activeDataDir sessionKey nonce fs json = .ok fs' →
        ∃ frame, encrypt sessionKey nonce json = .ok frame ∧
          readFile fs' (getDataFile activeDataDir) = some frame ∧
          isEncryptedBuffer frame = true)
    ∧ (isEncryptionEnabled encDataDir fs = false →
      ∀ fs', saveTodos encDataDir activeDataDir sessionKey nonce fs json = .ok fs' →
        readFile fs' (getDataFile activeDataDir) = some json)
    ∧ (readFile fs (getDataFile activeDataDir) = some raw →
        isEncryptedBuffer raw = true →
        loadTodos sessionKey activeDataDir fs = (decrypt sessionKey raw).toOption)
    ∧ (readFile fs (getDataFile activeDataDir) = some raw →
        isEncryptedBuffer raw = false →
        loadTodos sessionKey activeDataDir fs = some raw) := by
  refine ⟨?_, ?_, ?_, ?_⟩
  · intro hen fs' hsave
    unfold saveTodos at hsave
    rw [if_pos hen] at hsave
    cases sessionKey with
    | none => simp [encrypt] at hsave
    | some k =>
      simp only [encrypt] at hsave
      cases hw : writeFile fs (getDataFile activeDataDir)
          (MAGIC ++ nonce ++ tagOf k nonce (encCore k nonce json) ++
            encCore k nonce json) with
      | none => rw [hw] at hsave; exact absurd hsave (by simp)
      | some fs'' =>
        rw [hw] at hsave
        have he : fs'' = fs' := Except.ok.inj hsave
        subst he
        refine ⟨_, rfl, (writeFile_some hw).2.1, ?_⟩
        rw [List.append_assoc, List.append_assoc]
        exact isEncryptedBuffer_magic_append _
  · intro hen fs' hsave
    unfold saveTodos at hsave
    rw [if_neg (by simp [hen])] at hsave
    cases hw : writeFile fs (getDataFile activeDataDir) json with
    | none => simp [hw] at hsave
    | some fs'' =>
      simp only [hw] at hsave
      have he := Except.ok.inj hsave
      subst he
      exact (writeFile_some hw).2.1
  · intro hread hie
    unfold loadTodos
    simp only [hread]
    rw [if_pos hie]
    cases hd : decrypt sessionKey raw with
    | ok d => simp [hd, Except.toOption]
    | error e => simp [hd, Except.toOption]
  · intro hread hie
    unfold loadTodos
    simp [hread, hie]

/-- C7 witness. -/
theorem storage_transparent_encryption_witness :
    (isEncryptionEnabled "ws" fsW = false →
      ∀ fs', saveTodos "ws" "ws" (some keyW) nonceW fsW [55] = .ok fs' →
        readFile fs' (getDataFile "ws") = some [55]) ∧
    readFile fsW (getDataFile "ws") = some [123, 125] ∧
    isEncryptedBuffer [123, 125] = false ∧
    loadTodos (some keyW) "ws" fsW = some [123, 125] := by
  obtain ⟨-, h2, -, h4⟩ := storage_transparent_encryption "ws" "ws" (some keyW) nonceW fsW
    [55] [123, 125] rfl
  exact ⟨h2, rfl, rfl, h4 rfl rfl⟩

lemma restoreAll_cons (fs : FS) (pb : String × Buf) (rest : List (String × Buf)) :
    restoreAll fs (pb :: rest) =
      restoreAll (match writeFile fs pb.1 pb.2 with
        | some f' => f'
        | none => fs) rest := rfl

lemma restoreAll_failWrite : ∀ (bk : List (String × Buf)) (fs : FS),
    (restoreAll fs bk).failWrite = fs.failWrite
  | [], _ => rfl
  | pb :: rest, fs => by
    rw [restoreAll_cons]
    cases hw : writeFile fs pb.1 pb.2 with
    | none =>
      exact (restoreAll_failWrite rest _).trans rfl
    | some f' =>
      exact (restoreAll_failWrite rest f').trans (writeFile_some hw).1

lemma readFile_restoreAll_not_mem : ∀ (bk : List (String × Buf)) (fs : FS) (p : String),
    p ∉ bk.map Prod.fst → readFile (restoreAll fs bk) p = readFile fs p
  | [], _, _, _ => rfl
  | (q, d) :: rest, fs, p, hp => by
    have hp' : p ≠ q ∧ p ∉ rest.map Prod.fst := by simpa using hp
    rw [restoreAll_cons]
    cases hw : writeFile fs q d with
    | none =>
      exact (readFile_restoreAll_not_mem rest _ p hp'.2).trans rfl
    | some f' =>
      exact (readFile_restoreAll_not_mem rest f' p hp'.2).trans
        ((writeFile_some hw).2.2 p hp'.1)

lemma readFile_restoreAll_mem : ∀ (bk : List (String × Buf)) (fs : FS) (p : String) (c : Buf),
    (bk.map Prod.fst).Nodup → (p, c) ∈ bk → fs.failWrite p = false →
    readFile (restoreAll fs bk) p = some c
  | [], _, _, _, _, hmem, _ => absurd hmem (by simp)
  | (q, d) :: rest, fs, p, c, hnd, hmem, hfw => by
    have hnd' : q ∉ rest.map Prod.fst ∧ (rest.map Prod.fst).Nodup := by
      have := (by simpa using hnd : (q :: rest.map Prod.fst).Nodup)
      exact List.nodup_cons.mp this
    rw [restoreAll_cons]
    rcases List.mem_cons.mp hmem with heq | hmem'
    · injection heq with hpq hcd
      subst hpq
      subst hcd
      obtain ⟨f', hw⟩ := writeFile_of_not_failWrite c hfw
      rw [hw]
      exact (readFile_restoreAll_not_mem rest f' p hnd'.1).trans (writeFile_some hw).2.1
    · cases hw : writeFile fs q d with
      | none =>
        exact readFile_restoreAll_mem rest fs p c hnd'.2 hmem' hfw
      | some f' =>
        exact readFile_restoreAll_mem rest f' p c hnd'.2 hmem'
          (by rw [(writeFile_some hw).1]; exact hfw)

/-- Invariants of the migration loop: the failure-injection set is
unchanged, the backups extend the accumulator with one entry per processed
file holding that file's pre-loop bytes, only processed (hence backed-up)
paths are written, and the processed paths form a sublist of `files`. -/
lemma encryptLoop_spec (key : Buf) (nonces : Nat → Buf) :
    ∀ (files : List String) (i : Nat) (fs : FS) (bk : List (String × Buf)),
      files.Nodup →
      (encryptLoop (some key) nonces i fs files bk).1.failWrite = fs.failWrite ∧
      ∃ nw : List (String × Buf),
        (encryptLoop (some key) nonces i fs files bk).2.1 = bk ++ nw ∧
        List.Sublist (nw.map Prod.fst) files ∧
        (∀ pc ∈ nw, readFile fs pc.1 = some pc.2) ∧
        (∀ q, q ∉ nw.map Prod.fst →
          readFile (encryptLoop (some key) nonces i fs files bk).1 q = readFile fs q)
  | [], i, fs, bk, _ => by
    refine ⟨rfl, [], by simp [encryptLoop], List.nil_sublist _, ?_, fun q _ => rfl⟩
    intro pc hpc
    exact absurd hpc (by simp)
  | p :: rest, i, fs, bk, hnd => by
    obtain ⟨hp_notin, hnd'⟩ := List.nodup_cons.mp hnd
    cases hr : readFile fs p with
    | none =>
      have hstep : encryptLoop (some key) nonces i fs (p :: rest) bk =
          (fs, bk, some .fileNotFound) := by
        simp [encryptLoop, hr]
      rw [hstep]
      refine ⟨rfl, [], by simp, List.nil_sublist _, ?_, fun q _ => rfl⟩
      intro pc hpc
      exact absurd hpc (by simp)
    | some content =>
      cases he : encryptFile (some key) (nonces i) fs p with
      | error e =>
        have hstep : encryptLoop (some key) nonces i fs (p :: rest) bk =
            (fs, bk ++ [(p, content)], some e) := by
          simp [encryptLoop, hr, he]
        rw [hstep]
        refine ⟨rfl, [(p, content)], rfl, ?_, ?_, fun q _ => rfl⟩
        · exact (List.nil_sublist rest).cons₂ p
        · intro pc hpc
          rw [List.mem_singleton] at hpc
          subst hpc
          exact hr
      | ok fs' =>
        have hstep : encryptLoop (some key) nonces i fs (p :: rest) bk =
            encryptLoop (some key) nonces (i + 1) fs' rest (bk ++ [(p, content)]) := by
          simp [encryptLoop, hr, he]
        rw [hstep]
        obtain ⟨hfw', hother', c', hc', hie'⟩ := encryptFile_ok_post he
        obtain ⟨hfwL, nw', hbkL, hsubL, hcontentL, hpresL⟩ :=
          encryptLoop_spec key nonces rest (i + 1) fs' (bk ++ [(p, content)]) hnd'
        refine ⟨by rw [hfwL, hfw'], (p, content) :: nw', ?_, ?_, ?_, ?_⟩
        · rw [hbkL, List.append_assoc]
          rfl
        · rw [List.map_cons]
          exact List.Sublist.cons₂ _ hsubL
        · intro pc hpc
          rcases List.mem_cons.mp hpc with heq | hmem
          · subst heq
            exact hr
          · have h1 := hcontentL pc hmem
            have hpc1 : pc.1 ∈ nw'.map Prod.fst := List.mem_map_of_mem _ hmem
            have hpcrest : pc.1 ∈ rest := hsubL.subset hpc1
            have hne : pc.1 ≠ p := fun hh => hp_notin (hh ▸ hpcrest)
            rw [← hother' pc.1 hne]
            exact h1
        · intro q hq
          have hq' : q ≠ p ∧ q ∉ nw'.map Prod.fst := by simpa using hq
          rw [hpresL q hq'.2, hother' q hq'.1]

/-- When the migration loop reports no error, every listed file ends up in
frame form. -/
lemma encryptLoop_success (key : Buf) (nonces : Nat → Buf) :
    ∀ (files : List String) (i : Nat) (fs : FS) (bk : List (String × Buf)),
      files.Nodup →
      (encryptLoop (some key) nonces i fs files bk).2.2 = none →
      ∀ p ∈ files, ∃ c,
        readFile (encryptLoop (some key) nonces i fs files bk).1 p = some c ∧
        isEncryptedBuffer c = true
  | [], _, _, _, _, _, p, hp => absurd hp (by simp)
  | pf :: rest, i, fs, bk, hnd, hok, p, hp => by
    obtain ⟨hp_notin, hnd'⟩ := List.nodup_cons.mp hnd
    cases hr : readFile fs pf with
    | none => simp [encryptLoop, hr] at hok
    | some content =>
      cases he : encryptFile (some key) (nonces i) fs pf with
      | error e => simp [encryptLoop, hr, he] at hok
      | ok fs' =>
        simp only [encryptLoop, hr, he] at hok ⊢
        rcases List.mem_cons.mp hp with hpp | hprest
        · subst hpp
          obtain ⟨-, -, c', hc', hie'⟩ := encryptFile_ok_post he
          obtain ⟨-, nw', -, hsubL, -, hpresL⟩ :=
            encryptLoop_spec key nonces rest (i + 1) fs' (bk ++ [(p, content)]) hnd'
          have hnotin : p ∉ nw'.map Prod.fst := fun hh => hp_notin (hsubL.subset hh)
          exact ⟨c', (hpresL p hnotin).trans hc', hie'⟩
        · exact encryptLoop_success key nonces rest (i + 1) fs' (bk ++ [(pf, content)])
            hnd' hok p hprest

lemma setupEncryption_eq_err {key : Buf} {nonces : Nat → Buf} {fs : FS}
    {files : List String} {markerPath : String} {e : EncError}
    (hL : (encryptLoop (some key) nonces 0 fs files []).2.2 = some e) :
    setupEncryption key nonces fs files markerPath =
      ⟨none, restoreAll (encryptLoop (some key) nonces 0 fs files []).1
        (encryptLoop (some key) nonces 0 fs files []).2.1, some e⟩ := by
  unfold setupEncryption
  simp only [hL]

lemma setupEncryption_eq_ok {key : Buf} {nonces : Nat → Buf} {fs : FS}
    {files : List String} {markerPath : String} {fs2 : FS}
    (hL : (encryptLoop (some key) nonces 0 fs files []).2.2 = none)
    (hw : writeFile (encryptLoop (some key) nonces 0 fs files []).1 markerPath [] = some fs2) :
    setupEncryption key nonces fs files markerPath = ⟨some key, fs2, none⟩ := by
  unfold setupEncryption
  simp only [hL, hw]

lemma setupEncryption_eq_marker_fail {key : Buf} {nonces : Nat → Buf} {fs : FS}
    {files : List String} {markerPath : String}
    (hL : (encryptLoop (some key) nonces 0 fs files []).2.2 = none)
    (hw : writeFile (encryptLoop (some key) nonces 0 fs files []).1 markerPath [] = none) :
    setupEncryption key nonces fs files markerPath =
      ⟨none, restoreAll (encryptLoop (some key) nonces 0 fs files []).1
        (encryptLoop (some key) nonces 0 fs files []).2.1, some .writeFailed⟩ := by
  unfold setupEncryption
  simp only [hL, hw]

/-- After the rollback of a failed migration run, the marker is still
absent and every file whose write succeeds holds its original bytes. -/
lemma rollback_restores (key : Buf) (nonces : Nat → Buf) (fs : FS) (files : List String)
    (markerPath : String) (hnd : files.Nodup) (hmk : markerPath ∉ files)
    (hm0 : readFile fs markerPath = none) :
    readFile (restoreAll (encryptLoop (some key) nonces 0 fs files []).1
      (encryptLoop (some key) nonces 0 fs files []).2.1) markerPath = none ∧
    ∀ p ∈ files, fs.failWrite p = false →
      readFile (restoreAll (encryptLoop (some key) nonces 0 fs files []).1
        (encryptLoop (some key) nonces 0 fs files []).2.1) p = readFile fs p := by
  obtain ⟨hfwL, nw, hbk, hsub, hcontent, hpres⟩ := encryptLoop_spec key nonces files 0 fs [] hnd
  rw [hbk, List.nil_append]
  constructor
  · have hnotin : markerPath ∉ nw.map Prod.fst := fun hh => hmk (hsub.subset hh)
    rw [readFile_restoreAll_not_mem _ _ _ hnotin, hpres markerPath hnotin, hm0]
  · intro p hp hfwp
    by_cases hmem : p ∈ nw.map Prod.fst
    · obtain ⟨pc, hpc, hfst⟩ := List.mem_map.mp hmem
      have hcont := hcontent pc hpc
      have hnd_nw : (nw.map Prod.fst).Nodup := hsub.nodup hnd
      have hmempair : (p, pc.2) ∈ nw := by
        rw [← hfst, Prod.mk.eta]
        exact hpc
      rw [readFile_restoreAll_mem nw _ p pc.2 hnd_nw hmempair (by rw [hfwL]; exact hfwp)]
      rw [hfst] at hcont
      exact hcont.symm
    · rw [readFile_restoreAll_not_mem _ _ _ hmem, hpres p hmem]

/-- C3: during `setupEncryption`, if any step of the migration fails the
error propagates to the caller, the session key is discarded, the marker
file is not written, and every file of the run whose rollback write can
succeed is restored to its in-memory backup (the rollback continues past
individual restore failures); the marker is written only as the last
action, after every file encrypted successfully, and in that case the key
stays installed and all files are in frame form. -/
theorem setupEncryption_rollback (key : Buf) (nonces : Nat → Buf) (fs : FS)
    (files : List String) (markerPath : String)
    (hnd : files.Nodup) (hmk : markerPath ∉ files)
    (hm0 : readFile fs markerPath = none) :
    (∀ e, (encryptLoop (some key) nonces 0 fs files []).2.2 = some e →
      (setupEncryption key nonces fs files markerPath).err = some e) ∧
    (∀ e, (setupEncryption key nonces fs files markerPath).err = some e →
      (setupEncryption key nonces fs files markerPath).sessionKey = none ∧
      readFile (setupEncryption key nonces fs files markerPath).fs markerPath = none ∧
      (∀ p ∈ files, fs.failWrite p = false →
        readFile (setupEncryption key nonces fs files markerPath).fs p = readFile fs p)) ∧
    ((setupEncryption key nonces fs files markerPath).err = none →
      (setupEncryption key nonces fs files markerPath).sessionKey = some key ∧
      readFile (setupEncryption key nonces fs files markerPath).fs markerPath = some [] ∧
      (∀ p ∈ files, ∃ c,
        readFile (setupEncryption key nonces fs files markerPath).fs p = some c ∧
        isEncryptedBuffer c = true)) := by
  have hroll := rollback_restores key nonces fs files markerPath hnd hmk hm0
  refine ⟨?_, ?_, ?_⟩
  · intro e hL
    rw [setupEncryption_eq_err hL]
  · intro e herr
    cases hL : (encryptLoop (some key) nonces 0 fs files []).2.2 with
    | some e' =>
      rw [setupEncryption_eq_err hL]
      exact ⟨rfl, hroll.1, hroll.2⟩
    | none =>
      cases hw : writeFile (encryptLoop (some key) nonces 0 fs files []).1 markerPath [] with
      | some fs2 =>
        rw [setupEncryption_eq_ok hL hw] at herr
        exact absurd herr (by simp)
      | none =>
        rw [setupEncryption_eq_marker_fail hL hw]
        exact ⟨rfl, hroll.1, hroll.2⟩
  · intro hok
    cases hL : (encryptLoop (some key) nonces 0 fs files []).2.2 with
    | some e' =>
      rw [setupEncryption_eq_err hL] at hok
      exact absurd hok (by simp)
    | none =>
      cases hw : writeFile (encryptLoop (some key) nonces 0 fs files []).1 markerPath [] with
      | none =>
        rw [setupEncryption_eq_marker_fail hL hw] at hok
        exact absurd hok (by simp)
      | some fs2 =>
        rw [setupEncryption_eq_ok hL hw]
        refine ⟨rfl, (writeFile_some hw).2.1, ?_⟩
        intro p hp
        obtain ⟨c, hc, hie⟩ := encryptLoop_success key nonces files 0 fs [] hnd hL p hp
        refine ⟨c, ?_, hie⟩
        rw [(writeFile_some hw).2.2 p (fun hh => hmk (hh ▸ hp)), hc]

/-- C3 witness: two plaintext files, the second of which cannot be
written; the run fails, the first file is restored, the marker is absent
and the session key is discarded. -/
theorem setupEncryption_rollback_witness :
    (setupEncryption keyW (fun _ => nonceW) fsFailW ["a", "b"] "m").err =
      some .writeFailed ∧
    (setupEncryption keyW (fun _ => nonceW) fsFailW ["a", "b"] "m").sessionKey = none ∧
    readFile (setupEncryption keyW (fun _ => nonceW) fsFailW ["a", "b"] "m").fs "m" = none ∧
    readFile (setupEncryption keyW (fun _ => nonceW) fsFailW ["a", "b"] "m").fs "a" =
      some [104] := by
  obtain ⟨h1, h2, h3⟩ := setupEncryption_rollback keyW (fun _ => nonceW) fsFailW
    ["a", "b"] "m" (by decide) (by decide) rfl
  have herr : (setupEncryption keyW (fun _ => nonceW) fsFailW ["a", "b"] "m").err =
      some .writeFailed := h1 .writeFailed rfl
  obtain ⟨hk, hm, hrest⟩ := h2 .writeFailed herr
  refine ⟨herr, hk, hm, ?_⟩
  rw [hrest "a" (by decide) rfl]
  rfl

/-- C4: when the workspace already holds ciphertext (the representative
`todos.json` is in frame form), `unlockSession` verifies the derived key
by a trial decryption before committing it: with a wrong passphrase the
key is discarded and the wrong-passphrase outcome is reported, so no key
is installed afterwards; with the right passphrase the derived key is
installed. -/
theorem unlockSession_verifies (fs : FS) (saltPath todosPath : String)
    (passphrase salt kTrue n p raw : Buf)
    (hsalt : readFile fs saltPath = some salt)
    (htodos : readFile fs todosPath = some raw)
    (hn : n.length = NONCE_LENGTH)
    (henc : encrypt (some kTrue) n p = .ok raw) :
    (deriveKey passphrase salt ≠ kTrue →
      unlockSession fs saltPath todosPath passphrase = (none, .wrongPassphrase)) ∧
    (deriveKey passphrase salt = kTrue →
      unlockSession fs saltPath todosPath passphrase = (some kTrue, .ok)) := by
  have hraw : raw = MAGIC ++ n ++ tagOf kTrue n (encCore kTrue n p) ++ encCore kTrue n p := by
    simpa [encrypt] using henc.symm
  have hie : isEncryptedBuffer raw = true := isEncryptedBuffer_encrypt henc
  constructor
  · intro hne
    unfold unlockSession
    simp only [hsalt, htodos]
    rw [if_pos hie]
    have hdec : decrypt (some (deriveKey passphrase salt)) raw =
        .error .decryptionFailed := by
      rw [hraw, decrypt_frame_eval _ _ _ _ hn (length_tagOf ..)]
      rw [if_neg]
      intro hcontra
      exact hne (tagOf_inj hcontra).1.symm
    simp only [hdec]
  · intro heq
    unfold unlockSession
    simp only [hsalt, htodos]
    rw [if_pos hie]
    have hdec : decrypt (some (deriveKey passphrase salt)) raw = .ok p := by
      rw [heq, hraw, decrypt_frame_eval _ _ _ _ hn (length_tagOf ..), if_pos rfl,
        decCore_encCore]
    rw [heq] at hdec
    rw [heq]
    simp only [hdec]

/-- C4 witness: unlocking an encrypted workspace with the wrong passphrase
installs no key and reports the failure; the right passphrase installs the
derived key. -/
theorem unlockSession_verifies_witness :
    unlockSession fsUnlockW "ws/.salt" "ws/todos.json" [9] = (none, .wrongPassphrase) ∧
    unlockSession fsUnlockW "ws/.salt" "ws/todos.json" [1] = (some kTrueW, .ok) := by
  obtain ⟨h1, -⟩ := unlockSession_verifies fsUnlockW "ws/.salt" "ws/todos.json" [9]
    saltW kTrueW nonceW [123] _ rfl rfl (by decide) rfl
  obtain ⟨-, h2⟩ := unlockSession_verifies fsUnlockW "ws/.salt" "ws/todos.json" [1]
    saltW kTrueW nonceW [123] _ rfl rfl (by decide) rfl
  exact ⟨h1 (by decide), h2 rfl⟩

end DailyOrganiser
